import Mathlib

/-!
Verification of the dynare-irf-plotter repository.

The repository has three Python source files: `dynare_irf_utils.py` (the
shared library), `main.py` (an older near-duplicate variant of the same
functions), and `app.py` (the Streamlit front end, which imports the
library and additionally contains an inline thresholding loop and an
inline subplot grid).

Shallow embedding conventions:
* Python strings are Lean `String`s; Python string comparison/sorting is
  code-point lexicographic, embedded by `charListLe`/`pySorted`.
* Python dictionaries keyed by strings are association lists
  `List (String × _)`; `dict` built from `dir(...)` enumerates keys in
  sorted order, embedded by sorting the key list with `pySorted`.
* Numeric vectors are `List ℚ` (the float comparisons the claims exercise
  only involve values such as `1e-12`, `1e-10`, `1e-5`, `0`, `1`, whose
  float order agrees with the rational order).
* A Python function that can raise is embedded as `Except String _`;
  the error string is the raised message.
-/

namespace Dynare

/-- Code-point lexicographic comparison of char lists: Python `<=` on
strings. -/
def charListLe : List Char → List Char → Bool
  | [], _ => true
  | _ :: _, [] => false
  | a :: as, b :: bs =>
    if a < b then true
    else if b < a then false
    else charListLe as bs

/-- Python `a <= b` on strings. -/
def strLe (a b : String) : Bool := charListLe a.data b.data

/-- Insert a string into a list so that an ascending list stays ascending. -/
def insertStr (s : String) : List String → List String
  | [] => [s]
  | x :: xs => if strLe s x then s :: x :: xs else x :: insertStr s xs

/-- Python `sorted(xs)` for a list of strings (insertion sort; the Python
builtin is also a comparison sort over code-point order). -/
def pySorted (xs : List String) : List String := xs.foldr insertStr []

/-- Python `sorted(set(xs))`: distinct elements in ascending order. -/
def pySortedSet (xs : List String) : List String := pySorted xs.dedup

/-- Python `s.endswith(suf)`: the last `len(suf)` characters of `s` equal
`suf` (false when `suf` is longer than `s`). -/
def pyEndsWith (s suf : String) : Bool :=
  s.data.drop (s.data.length - suf.data.length) == suf.data

/-- Python `s[:-k]` for `k ≥ 1`: all but the last `k` characters (empty
when `k ≥ len(s)`). -/
def pyDropRight (s : String) (k : Nat) : String :=
  ⟨s.data.take (s.data.length - k)⟩

/-- Python `xs.index(s)` wrapped in `Option` (the sources catch the
`ValueError` of a failed `index`, embedded here as `none`). -/
def pyIndex (xs : List String) (s : String) : Option Nat :=
  match xs with
  | [] => none
  | x :: xs => if x = s then some 0 else (pyIndex xs s).map (· + 1)

/-- The four index-aligned name lists carried by the `M_` record of a
Dynare result file (`get_endo_names_all` / `get_exo_names_all` in
`dynare_irf_utils.py`, already stripped). -/
structure ModelMeta where
  endo_names : List String
  endo_names_long : List String
  exo_names : List String
  exo_names_long : List String

/-- `to_endo_name_long` of `dynare_irf_utils.py` (lines 158-169): look the
short name up in `endo_names` and return the same index of
`endo_names_long`; `KeyError` when absent. -/
def to_endo_name_long (M : ModelMeta) (short_name : String) : Except String String :=
  match pyIndex M.endo_names short_name with
  | some idx =>
    match M.endo_names_long.get? idx with
    | some l => .ok l
    | none => .error "IndexError"
  | none => .error "KeyError: Variable name not found in M_.endo_names."

/-- `to_endo_name_short` of `dynare_irf_utils.py` (lines 172-186). -/
def to_endo_name_short (M : ModelMeta) (long_name : String) : Except String String :=
  match pyIndex M.endo_names_long long_name with
  | some idx =>
    match M.endo_names.get? idx with
    | some s => .ok s
    | none => .error "IndexError"
  | none => .error "KeyError: Variable name was not found in M_.endo_names_long."

/-- `to_exo_name_long` of `dynare_irf_utils.py` (lines 189-205): when the
short and long entries at the found index coincide, the short name itself
is returned. -/
def to_exo_name_long (M : ModelMeta) (short_name : String) : Except String String :=
  match pyIndex M.exo_names short_name with
  | some idx =>
    match M.exo_names.get? idx, M.exo_names_long.get? idx with
    | some s, some l => if s = l then .ok short_name else .ok l
    | _, _ => .error "IndexError"
  | none => .error "KeyError: Shock name was not found in M_.exo_names."

/-- `to_exo_name_short` of `dynare_irf_utils.py` (lines 208-224). -/
def to_exo_name_short (M : ModelMeta) (long_name : String) : Except String String :=
  match pyIndex M.exo_names_long long_name with
  | some idx =>
    match M.exo_names.get? idx, M.exo_names_long.get? idx with
    | some s, some l => if s = l then .ok long_name else .ok s
    | _, _ => .error "IndexError"
  | none => .error "KeyError: Shock name was not found in M_.exo_names_long."

/-- `convert` of `dynare_irf_utils.py` (lines 227-261): dispatch on
`vartype` and `length`, raising `ValueError` when either is outside its
enum. -/
def convert (name : String) (M : ModelMeta) (vartype leng : String) : Except String String :=
  if vartype = "endo" then
    if leng = "short" then to_endo_name_short M name
    else if leng = "long" then to_endo_name_long M name
    else .error "length must be short or long."
  else if vartype = "exo" then
    if leng = "short" then to_exo_name_short M name
    else if leng = "long" then to_exo_name_long M name
    else .error "length must be short or long."
  else .error "vartype must be endo for endogenous or exo for exogenous."

/-- `convert` of `main.py` (lines 224-254): the `if vartype == endo:` /
`elif vartype == exo:` arms have no inner `else`, so a valid `vartype`
combined with an invalid `length` falls off the end of the function and
returns `None` (embedded as `.ok none`); only an invalid `vartype`
reaches the `raise`. -/
def convert_main (name : String) (M : ModelMeta) (vartype leng : String) :
    Except String (Option String) :=
  if vartype = "endo" then
    if leng = "short" then (to_endo_name_short M name).map some
    else if leng = "long" then (to_endo_name_long M name).map some
    else .ok none
  else if vartype = "exo" then
    if leng = "short" then (to_exo_name_short M name).map some
    else if leng = "long" then (to_exo_name_long M name).map some
    else .ok none
  else .error "vartype must be endo for endogenous or exo for exogenous."

/-- The composite of the spec's round-trip property: short → long, then
long → short, through `convert`. -/
def roundTrip (s vartype : String) (M : ModelMeta) : Except String String :=
  (convert s M vartype "long").bind (fun l => convert l M vartype "short")

example : pyEndsWith "a_b_e" "_e" = true := by decide
example : pyEndsWith "a_u" "_e" = false := by decide
example : pyDropRight "a_e" 2 = "a" := by decide
example : pySorted ["a_e", "b_e", "a_u"] = ["a_e", "a_u", "b_e"] := by decide
example : pyIndex ["a", "b"] "b" = some 1 := by decide

/-! ## Extraction (`get_irf_endo_vars`, `get_irf`) -/

/-- The inner loop of `get_irf_endo_vars` (lines 105-110 of
`dynare_irf_utils.py`): scan the exogenous short names in stored order
and stop at the first one whose `"_<shock>"` suffix matches
(`break` fires whether or not the prefix is a known variable). -/
def matchShock (exo : List String) (f : String) : Option String :=
  exo.find? (fun shock => pyEndsWith f ("_" ++ shock))

/-- `var = full_name[:-(len(shock)+1)]` (line 107). -/
def fieldVar (f shock : String) : String := pyDropRight f (shock.length + 1)

/-- `used_vars_by_shock[shock].append(var)` on a `defaultdict(list)`:
append to the entry when the key exists, otherwise add the key at the
end (insertion order). -/
def addVar (acc : List (String × List String)) (shock v : String) :
    List (String × List String) :=
  match acc with
  | [] => [(shock, [v])]
  | (s, vs) :: rest =>
    if s = shock then (s, vs ++ [v]) :: rest
    else (s, vs) :: addVar rest shock v

/-- One iteration of the grouping loop of `get_irf_endo_vars`
(lines 104-110) over one field name. -/
def groupStep (exo endo : List String) (acc : List (String × List String))
    (f : String) : List (String × List String) :=
  match matchShock exo f with
  | none => acc
  | some shock =>
    let v := fieldVar f shock
    if v ∈ endo then addVar acc shock v else acc

/-- The grouping loop of `get_irf_endo_vars` over all field names. -/
def usedVarsRaw (exo endo : List String) (names : List String) :
    List (String × List String) :=
  names.foldl (groupStep exo endo) []

/-- `get_irf_endo_vars` of `dynare_irf_utils.py` (lines 73-120), taking
the exogenous short names, the endogenous short names, and the field
names of the numeric-array fields of `oo_.irfs` (in the sorted order
that `dir` produces).  Each group is deduplicated and sorted
(`sorted(set(...))`, line 114); an empty result raises `ValueError`. -/
def get_irf_endo_vars (exo endo : List String) (names : List String) :
    Except String (List (String × List String)) :=
  let grouped := (usedVarsRaw exo endo names).map (fun p => (p.1, pySortedSet p.2))
  if grouped.isEmpty then
    .error "No IRF variable names found for the given shocks."
  else .ok grouped

/-- The table-building comprehension of `get_irf` (lines 142-150 of
`dynare_irf_utils.py`): for each grouped shock, keep the variables whose
reconstructed `"<var>_<shock>"` field name is present
(`if f"{var}_{shock}" in irf_dict`), and store the table only when it is
nonempty (`if var_data:`). -/
def buildTables (fields : List (String × List ℚ))
    (used : List (String × List String)) :
    List (String × List (String × List ℚ)) :=
  (used.map (fun p =>
    (p.1, p.2.filterMap
      (fun v => (fields.lookup (v ++ "_" ++ p.1)).map (fun d => (v, d)))))).filter
    (fun p => !p.2.isEmpty)

/-- `get_irf` of `dynare_irf_utils.py` (lines 123-155).  `fields` is the
numeric-array field collection of `oo_.irfs` (name, vector); the field
names seen by the grouping pass come from `dir(irfs)`, hence sorted.
An empty overall result raises `ValueError`. -/
def get_irf (exo endo : List String) (fields : List (String × List ℚ)) :
    Except String (List (String × List (String × List ℚ))) :=
  let names := pySorted (fields.map Prod.fst)
  match get_irf_endo_vars exo endo names with
  | .error e => .error e
  | .ok used =>
    let shockDfs := buildTables fields used
    if shockDfs.isEmpty then .error "No IRF data found for the given shocks."
    else .ok shockDfs

/-- A field name contributes a (variable, shock, vector) triple exactly
when the first shock whose suffix matches leaves a known endogenous
prefix.  This is the acceptance condition of the extractor, used to state
when extraction succeeds. -/
def fieldContributes (exo endo : List String) (f : String) : Bool :=
  match matchShock exo f with
  | some shock => decide (fieldVar f shock ∈ endo)
  | none => false

/-! ## Plot composition (`plot_irf_df`, the app thresholding loop, layout) -/

/-- `np.nanmax(np.abs(arr))` over the embedded rationals (no NaN in the
model; the fold starts at `0`, which is below every absolute value of a
nonempty series, so on nonempty input this is the true maximum). -/
def maxAbs (xs : List ℚ) : ℚ := (xs.map (fun x => |x|)).foldl max 0

/-- Lines 278-282 of `dynare_irf_utils.py`: if the maximum absolute value
of a series is below the threshold, every entry becomes `0` (`arr[:] = 0`
keeps the length); otherwise the series is untouched. -/
def thresholdSeries (eps : ℚ) (arr : List ℚ) : List ℚ :=
  if maxAbs arr < eps then arr.map (fun _ => (0 : ℚ)) else arr

/-- The default `irf_threshold=1e-10` of `plot_irf_df` and the module
constant `plot_threshold = 1e-10` of `app.py` (line 102). -/
def irf_threshold_default : ℚ := 1 / 10 ^ 10

/-- `df[endo_names]`: select the requested columns, in the requested
order (pandas raises on a missing column; the model simply skips it,
which the claims never exercise). -/
def selectCols (tbl : List (String × List ℚ)) (names : List String) :
    List (String × List ℚ) :=
  names.filterMap (fun n => (tbl.lookup n).map (fun v => (n, v)))

/-- The data preparation of `plot_irf_df` in `dynare_irf_utils.py`
(lines 275-282): select the columns, then apply the thresholding rule to
each series.  `irf_df = df[endo_names]` is a pandas copy, so the input
table is left unchanged; the returned value is what gets drawn. -/
def plot_prep_utils (eps : ℚ) (tbl : List (String × List ℚ))
    (endoNames : List String) : List (String × List ℚ) :=
  (selectCols tbl endoNames).map (fun p => (p.1, thresholdSeries eps p.2))

/-- The data preparation of `plot_irf_df` in `main.py` (lines 257-258):
the column selection only — this variant has no thresholding loop at
all. -/
def plot_prep_main (tbl : List (String × List ℚ)) (endoNames : List String) :
    List (String × List ℚ) :=
  selectCols tbl endoNames

/-- The per-table effect of the app thresholding loop body
(`for col in df.columns: ... df[col] = arr`, `app.py` lines 491-495):
every series of the table is thresholded in place. -/
def thresholdTable (eps : ℚ) (tbl : List (String × List ℚ)) :
    List (String × List ℚ) :=
  tbl.map (fun p => (p.1, thresholdSeries eps p.2))

/-- The app thresholding loop (`app.py` lines 489-495): for every loaded
collection, the table of the selected shock is mutated in place by
`df[col] = arr`.  The function returns the post-state of the list of
collections. -/
def app_threshold_loop (eps : ℚ) (shock : String)
    (dfsList : List (List (String × List (String × List ℚ)))) :
    List (List (String × List (String × List ℚ))) :=
  dfsList.map (fun c =>
    c.map (fun p => if p.1 = shock then (p.1, thresholdTable eps p.2) else p))

/-- `n_rows = math.ceil(n_series / n_cols)` (`dynare_irf_utils.py`
line 285, `app.py` line 363), with the Python float division embedded as
exact rational division. -/
def nRows (nSeries nCols : Nat) : Nat :=
  (⌈(nSeries : ℚ) / (nCols : ℚ)⌉).toNat

/-- Python `range(a, b)`. -/
def pyRange (a b : Nat) : List Nat := List.range' a (b - a)

/-- The hide-unused-subplots loop: `for j in range(i + 1, len(axes))`
with `i = n_series - 1` after the drawing loop (`dynare_irf_utils.py`
lines 313-314) and equivalently `for idx in range(n_vars, n_rows * n_col)`
(`app.py` line 544): the indices of the grid cells that are made
invisible, out of the `n_rows * n_cols` cells of the grid. -/
def hidden_axes (nSeries nCols : Nat) : List Nat :=
  pyRange nSeries (nRows nSeries nCols * nCols)

/-- Ascending in Python string order. -/
def strSorted (xs : List String) : Prop :=
  List.Pairwise (fun a b => strLe a b = true) xs

/-- Invariant of the grouping accumulator of `get_irf_endo_vars`: every
entry is keyed by a known shock, owns at least one variable, and every
variable is a known endogenous name whose reconstructed field name is
one of the available field names. -/
def GoodAcc (keys exo endo : List String) (acc : List (String × List String)) : Prop :=
  ∀ p ∈ acc, p.2 ≠ [] ∧ p.1 ∈ exo ∧
    ∀ v ∈ p.2, v ∈ endo ∧ (v ++ "_" ++ p.1) ∈ keys

/-! ## Concrete instances used by counterexamples and witnesses -/

/-- Index-aligned metadata with unique short names but a duplicated long
name (the spec allows duplicated long names). -/
def c1Meta : ModelMeta := ⟨["a", "b"], ["X", "X"], [], []⟩

/-- Well-formed metadata with duplicate-free long names. -/
def c1WitnessMeta : ModelMeta := ⟨["a"], ["A long"], ["u"], ["u shock"]⟩

/-- A small well-formed metadata record. -/
def c2Meta : ModelMeta := ⟨["a"], ["A"], ["u"], ["U"]⟩

/-- Shock metadata where shock `u` has identical short and long names and
shock `v` has a distinct long name. -/
def c8Meta : ModelMeta := ⟨[], [], ["u", "v"], ["u", "V long"]⟩

/-! ## Helper lemmas -/

/-- The maximum absolute value of a one-element series. -/
theorem maxAbs_singleton (q : ℚ) (h : 0 ≤ q) : maxAbs [q] = q := by
  simp [maxAbs, abs_of_nonneg h, max_eq_right h]

theorem pyIndex_get_self {xs : List String} {s : String} {i : Nat}
    (h : pyIndex xs s = some i) : xs.get? i = some s := by
  induction xs generalizing i with
  | nil => simp [pyIndex] at h
  | cons x xs ih =>
    by_cases hx : x = s
    · simp [pyIndex, hx] at h
      subst h
      simp [hx]
    · simp [pyIndex, hx] at h
      obtain ⟨j, hj, rfl⟩ := h
      simpa using ih hj

theorem pyIndex_of_mem {xs : List String} {s : String} (h : s ∈ xs) :
    ∃ i, pyIndex xs s = some i := by
  induction xs with
  | nil => simp at h
  | cons x xs ih =>
    by_cases hx : x = s
    · exact ⟨0, by simp [pyIndex, hx]⟩
    · have hs : s ∈ xs := by
        rcases List.mem_cons.mp h with h' | h'
        · exact absurd h'.symm hx
        · exact h'
      obtain ⟨i, hi⟩ := ih hs
      exact ⟨i + 1, by simp [pyIndex, hx, hi]⟩

theorem pyIndex_lt_length {xs : List String} {s : String} {i : Nat}
    (h : pyIndex xs s = some i) : i < xs.length := by
  have := pyIndex_get_self h
  by_contra hlt
  rw [List.get?_eq_none.mpr (Nat.le_of_not_lt hlt)] at this
  exact Option.noConfusion this

theorem pyIndex_of_nodup_get {xs : List String} {a : String} {i : Nat}
    (hnd : xs.Nodup) (h : xs.get? i = some a) : pyIndex xs a = some i := by
  induction xs generalizing i with
  | nil => simp at h
  | cons x xs ih =>
    cases i with
    | zero =>
      rw [List.get?_cons_zero] at h
      injection h with h
      simp [pyIndex, h]
    | succ j =>
      rw [List.get?_cons_succ] at h
      have hx : x ≠ a := by
        intro hxa
        subst hxa
        exact (List.nodup_cons.mp hnd).1 (List.get?_mem h)
      simp [pyIndex, hx, ih (List.nodup_cons.mp hnd).2 h]

theorem string_data_inj {a b : String} (h : a.data = b.data) : a = b := by
  cases a; cases b; exact congrArg String.mk h

/-- A matched suffix can be split off: dropping the suffix and appending
it back recovers the field name. -/
theorem pyEndsWith_split {f suf : String} (h : pyEndsWith f suf = true) :
    pyDropRight f suf.length ++ suf = f := by
  rw [pyEndsWith, beq_iff_eq] at h
  apply string_data_inj
  rw [String.data_append]
  have hsplit :
      f.data.take (f.data.length - suf.data.length) ++
        f.data.drop (f.data.length - suf.data.length) = f.data :=
    List.take_append_drop _ _
  rw [h] at hsplit
  exact hsplit

/-- Line 107 of `dynare_irf_utils.py`: when the `"_<shock>"` suffix
matches, the extracted variable prefix reconstitutes the field name. -/
theorem fieldVar_append {f shock : String}
    (h : pyEndsWith f ("_" ++ shock) = true) :
    fieldVar f shock ++ "_" ++ shock = f := by
  have hlen : ("_" ++ shock).length = shock.length + 1 := by
    show ("_" ++ shock).data.length = shock.data.length + 1
    rw [String.data_append]
    simp [Nat.add_comm]
  have := pyEndsWith_split h
  rw [hlen] at this
  rw [fieldVar, String.append_assoc]
  exact this

theorem charListLe_total (a b : List Char) :
    charListLe a b = true ∨ charListLe b a = true := by
  induction a generalizing b with
  | nil => left; rfl
  | cons x xs ih =>
    cases b with
    | nil => right; rfl
    | cons y ys =>
      by_cases hxy : x < y
      · left; simp [charListLe, hxy]
      · by_cases hyx : y < x
        · right; simp [charListLe, hyx, hxy]
        · rcases ih ys with h | h
          · left; simp [charListLe, hxy, hyx, h]
          · right; simp [charListLe, hxy, hyx, h]

theorem strLe_total (a b : String) : strLe a b = true ∨ strLe b a = true :=
  charListLe_total a.data b.data

theorem charListLe_trans {a b c : List Char} (h1 : charListLe a b = true)
    (h2 : charListLe b c = true) : charListLe a c = true := by
  induction a generalizing b c with
  | nil => rfl
  | cons x xs ih =>
    cases b with
    | nil => simp [charListLe] at h1
    | cons y ys =>
      cases c with
      | nil => simp [charListLe] at h2
      | cons z zs =>
        by_cases hxy : x < y
        · by_cases hyz : y < z
          · simp [charListLe, lt_trans hxy hyz]
          · by_cases hzy : z < y
            · simp [charListLe, hyz, hzy] at h2
            · have : y = z := le_antisymm (not_lt.mp hzy) (not_lt.mp hyz)
              subst this
              simp [charListLe, hxy]
        · by_cases hyx : y < x
          · simp [charListLe, hxy, hyx] at h1
          · have hxy' : x = y := le_antisymm (not_lt.mp hyx) (not_lt.mp hxy)
            subst hxy'
            rw [charListLe, if_neg hxy, if_neg hyx] at h1
            by_cases hxz : x < z
            · simp [charListLe, hxz]
            · by_cases hzx : z < x
              · simp [charListLe, hxz, hzx] at h2
              · rw [charListLe, if_neg hxz, if_neg hzx] at h2 ⊢
                exact ih h1 h2

theorem strLe_trans {a b c : String} (h1 : strLe a b = true)
    (h2 : strLe b c = true) : strLe a c = true :=
  charListLe_trans h1 h2

theorem mem_insertStr {a s : String} {xs : List String} :
    a ∈ insertStr s xs ↔ a = s ∨ a ∈ xs := by
  induction xs with
  | nil => simp [insertStr]
  | cons x xs ih =>
    by_cases h : strLe s x = true
    · simp [insertStr, h]
    · simp only [insertStr, if_neg h, List.mem_cons, ih]
      tauto

theorem mem_pySorted {a : String} {xs : List String} :
    a ∈ pySorted xs ↔ a ∈ xs := by
  induction xs with
  | nil => simp [pySorted]
  | cons x xs ih =>
    show a ∈ insertStr x (pySorted xs) ↔ _
    rw [mem_insertStr, ih]
    simp

theorem pySorted_eq_nil {xs : List String} : pySorted xs = [] ↔ xs = [] := by
  cases xs with
  | nil => simp [pySorted]
  | cons x xs =>
    constructor
    · intro h
      have : x ∈ pySorted (x :: xs) := mem_pySorted.mpr (List.mem_cons_self _ _)
      rw [h] at this
      simp at this
    · intro h
      exact absurd h (by simp)

theorem sorted_insertStr {s : String} {xs : List String}
    (h : strSorted xs) : strSorted (insertStr s xs) := by
  induction xs with
  | nil => simp [insertStr, strSorted]
  | cons x xs ih =>
    rcases List.pairwise_cons.mp h with ⟨hx, hxs⟩
    by_cases hle : strLe s x = true
    · rw [insertStr, if_pos hle]
      refine List.pairwise_cons.mpr ⟨?_, h⟩
      intro b hb
      rcases List.mem_cons.mp hb with rfl | hb
      · exact hle
      · -- strLe s b via totality: strLe x b holds, and strLe s x
        -- lexicographic order is transitive on the lists at hand; we use
        -- totality and a direct induction instead
        exact strLe_trans hle (hx b hb)
    · rw [insertStr, if_neg hle]
      refine List.pairwise_cons.mpr ⟨?_, ih hxs⟩
      intro b hb
      rcases mem_insertStr.mp hb with rfl | hb
      · rcases strLe_total b x with h' | h'
        · exact absurd h' hle
        · exact h'
      · exact hx b hb

theorem sorted_pySorted (xs : List String) : strSorted (pySorted xs) := by
  induction xs with
  | nil => simp [pySorted, strSorted]
  | cons x xs ih => exact sorted_insertStr ih

theorem nodup_insertStr {s : String} {xs : List String} (hs : s ∉ xs)
    (h : xs.Nodup) : (insertStr s xs).Nodup := by
  induction xs with
  | nil => simp [insertStr]
  | cons x xs ih =>
    rcases List.nodup_cons.mp h with ⟨hx, hxs⟩
    by_cases hle : strLe s x = true
    · rw [insertStr, if_pos hle]
      exact List.nodup_cons.mpr ⟨hs, h⟩
    · rw [insertStr, if_neg hle]
      refine List.nodup_cons.mpr ⟨?_, ih (fun hmem => hs (List.mem_cons_of_mem _ hmem)) hxs⟩
      intro hmem
      rcases mem_insertStr.mp hmem with rfl | hmem
      · exact hs (List.mem_cons_self _ _)
      · exact hx hmem

theorem nodup_pySorted {xs : List String} (h : xs.Nodup) : (pySorted xs).Nodup := by
  induction xs with
  | nil => simp [pySorted]
  | cons x xs ih =>
    rcases List.nodup_cons.mp h with ⟨hx, hxs⟩
    exact nodup_insertStr (fun hmem => hx (mem_pySorted.mp hmem)) (ih hxs)

theorem mem_pySortedSet {a : String} {xs : List String} :
    a ∈ pySortedSet xs ↔ a ∈ xs := by
  rw [pySortedSet, mem_pySorted, List.mem_dedup]

theorem sorted_pySortedSet (xs : List String) : strSorted (pySortedSet xs) :=
  sorted_pySorted xs.dedup

theorem nodup_pySortedSet (xs : List String) : (pySortedSet xs).Nodup :=
  nodup_pySorted (List.nodup_dedup xs)

theorem pySortedSet_eq_nil {xs : List String} : pySortedSet xs = [] ↔ xs = [] := by
  rw [pySortedSet, pySorted_eq_nil, List.dedup_eq_nil]

/-! ### Grouping-loop lemmas -/

theorem addVar_ne_nil (acc : List (String × List String)) (shock v : String) :
    addVar acc shock v ≠ [] := by
  cases acc with
  | nil => simp [addVar]
  | cons p rest =>
    obtain ⟨s, vs⟩ := p
    by_cases h : s = shock
    · simp [addVar, h]
    · simp [addVar, h]

theorem groupStep_of_not_contrib {exo endo : List String} {f : String}
    (h : fieldContributes exo endo f = false)
    (acc : List (String × List String)) : groupStep exo endo acc f = acc := by
  rw [groupStep]
  rcases hm : matchShock exo f with _ | shock
  · rfl
  · rw [fieldContributes, hm] at h
    simp only [decide_eq_false_iff_not] at h
    simp [h]

theorem groupStep_of_contrib {exo endo : List String} {f : String}
    (h : fieldContributes exo endo f = true)
    (acc : List (String × List String)) :
    ∃ shock, matchShock exo f = some shock ∧ fieldVar f shock ∈ endo ∧
      groupStep exo endo acc f = addVar acc shock (fieldVar f shock) := by
  rw [fieldContributes] at h
  rcases hm : matchShock exo f with _ | shock
  · rw [hm] at h; exact absurd h (by simp)
  · rw [hm] at h
    simp only [decide_eq_true_eq] at h
    exact ⟨shock, rfl, h, by rw [groupStep, hm]; simp [h]⟩

theorem groupStep_ne_nil {exo endo : List String} {f : String}
    {acc : List (String × List String)} (h : acc ≠ []) :
    groupStep exo endo acc f ≠ [] := by
  rcases hc : fieldContributes exo endo f with _ | _
  · rw [groupStep_of_not_contrib hc]; exact h
  · obtain ⟨shock, _, _, heq⟩ := groupStep_of_contrib hc acc
    rw [heq]
    exact addVar_ne_nil _ _ _

theorem foldl_groupStep_eq_nil_iff {exo endo : List String} (names : List String)
    (acc : List (String × List String)) :
    names.foldl (groupStep exo endo) acc = [] ↔
      acc = [] ∧ ∀ f ∈ names, fieldContributes exo endo f = false := by
  induction names generalizing acc with
  | nil => simp
  | cons f fs ih =>
    rw [List.foldl_cons, ih]
    constructor
    · rintro ⟨hstep, hall⟩
      rcases hc : fieldContributes exo endo f with _ | _
      · rw [groupStep_of_not_contrib hc] at hstep
        refine ⟨hstep, ?_⟩
        intro g hg
        rcases List.mem_cons.mp hg with rfl | hg
        · exact hc
        · exact hall g hg
      · obtain ⟨shock, _, _, heq⟩ := groupStep_of_contrib hc acc
        rw [heq] at hstep
        exact absurd hstep (addVar_ne_nil _ _ _)
    · rintro ⟨hacc, hall⟩
      have hc := hall f (List.mem_cons_self _ _)
      rw [groupStep_of_not_contrib hc]
      exact ⟨hacc, fun g hg => hall g (List.mem_cons_of_mem _ hg)⟩

theorem goodAcc_addVar {keys exo endo : List String}
    {acc : List (String × List String)} {shock v : String}
    (hg : GoodAcc keys exo endo acc) (hs : shock ∈ exo) (hv : v ∈ endo)
    (hk : (v ++ "_" ++ shock) ∈ keys) :
    GoodAcc keys exo endo (addVar acc shock v) := by
  induction acc with
  | nil =>
    intro p hp
    simp [addVar] at hp
    subst hp
    exact ⟨by simp, hs, by simpa using ⟨hv, hk⟩⟩
  | cons q rest ih =>
    obtain ⟨s, vs⟩ := q
    have hq := hg (s, vs) (List.mem_cons_self _ _)
    have hrest : GoodAcc keys exo endo rest :=
      fun p hp => hg p (List.mem_cons_of_mem _ hp)
    by_cases hsh : s = shock
    · subst hsh
      intro p hp
      rw [addVar, if_pos rfl] at hp
      rcases List.mem_cons.mp hp with rfl | hp
      · refine ⟨by simp, hq.2.1, ?_⟩
        intro w hw
        rcases List.mem_append.mp hw with hw | hw
        · exact hq.2.2 w hw
        · rw [List.mem_singleton.mp hw]
          exact ⟨hv, hk⟩
      · exact hrest p hp
    · intro p hp
      rw [addVar, if_neg hsh] at hp
      rcases List.mem_cons.mp hp with rfl | hp
      · exact hq
      · exact ih hrest p hp

theorem goodAcc_groupStep {keys exo endo : List String}
    {acc : List (String × List String)} {f : String}
    (hg : GoodAcc keys exo endo acc) (hf : f ∈ keys) :
    GoodAcc keys exo endo (groupStep exo endo acc f) := by
  rcases hc : fieldContributes exo endo f with _ | _
  · rw [groupStep_of_not_contrib hc]
    exact hg
  · obtain ⟨shock, hm, hv, heq⟩ := groupStep_of_contrib hc acc
    rw [heq]
    have hm' : exo.find? (fun sh => pyEndsWith f ("_" ++ sh)) = some shock := hm
    have hs : shock ∈ exo := List.mem_of_find?_eq_some hm'
    have hend : pyEndsWith f ("_" ++ shock) = true := by
      have := List.find?_some hm'
      simpa using this
    have hk : (fieldVar f shock ++ "_" ++ shock) ∈ keys := by
      rw [fieldVar_append hend]
      exact hf
    exact goodAcc_addVar hg hs hv hk

theorem goodAcc_foldl {keys exo endo : List String} {names : List String}
    {acc : List (String × List String)}
    (hnames : ∀ f ∈ names, f ∈ keys) (hg : GoodAcc keys exo endo acc) :
    GoodAcc keys exo endo (names.foldl (groupStep exo endo) acc) := by
  induction names generalizing acc with
  | nil => exact hg
  | cons f fs ih =>
    rw [List.foldl_cons]
    exact ih (fun g hgm => hnames g (List.mem_cons_of_mem _ hgm))
      (goodAcc_groupStep hg (hnames f (List.mem_cons_self _ _)))

theorem goodAcc_usedVarsRaw (exo endo keys : List String) :
    GoodAcc keys exo endo (usedVarsRaw exo endo (pySorted keys)) :=
  goodAcc_foldl (fun f hf => mem_pySorted.mp hf) (fun p hp => absurd hp (by simp))

theorem lookup_of_mem_keys {fields : List (String × List ℚ)} {k : String}
    (h : k ∈ fields.map Prod.fst) : ∃ d, fields.lookup k = some d := by
  induction fields with
  | nil => simp at h
  | cons p rest ih =>
    obtain ⟨a, b⟩ := p
    by_cases hk : k = a
    · exact ⟨b, by simp [List.lookup, hk]⟩
    · have hkr : k ∈ rest.map Prod.fst := by
        rcases List.mem_map.mp h with ⟨p, hp, hpk⟩
        rcases List.mem_cons.mp hp with rfl | hp
        · exact (hk hpk.symm).elim
        · exact List.mem_map.mpr ⟨p, hp, hpk⟩
      obtain ⟨d, hd⟩ := ih hkr
      have hne : (k == a) = false := beq_eq_false_iff_ne.mpr hk
      exact ⟨d, by simp [List.lookup, hne, hd]⟩

theorem map_fst_filterMap_sublist (vs : List String)
    (o : String → Option (List ℚ)) :
    ((vs.filterMap (fun v => (o v).map (fun d => (v, d)))).map Prod.fst).Sublist vs := by
  induction vs with
  | nil => simp
  | cons v rest ih =>
    rw [List.filterMap_cons]
    cases o v with
    | none =>
      simp only [Option.map_none']
      exact ih.cons _
    | some d =>
      simp only [Option.map_some', List.map_cons]
      exact ih.cons₂ _

theorem map_eq_self_iff_my {α : Type} {l : List α} {f : α → α} :
    l.map f = l ↔ ∀ x ∈ l, f x = x := by
  induction l with
  | nil => simp
  | cons x xs ih =>
    rw [List.map_cons, List.cons.injEq, ih, List.forall_mem_cons]

/-- The nonempty-table argument: when every grouped entry is nonempty
and every reconstructed field name is present, the built tables are
nonempty as soon as the grouping is. -/
theorem buildTables_ne_nil {fields : List (String × List ℚ)}
    {used : List (String × List String)} (hne : used ≠ [])
    (hprop : ∀ p ∈ used, p.2 ≠ [] ∧
      ∀ v ∈ p.2, (v ++ "_" ++ p.1) ∈ fields.map Prod.fst) :
    buildTables fields used ≠ [] := by
  obtain ⟨q, rest, rfl⟩ := List.exists_cons_of_ne_nil hne
  obtain ⟨s, vs⟩ := q
  obtain ⟨hvs, hkeys⟩ := hprop (s, vs) (List.mem_cons_self _ _)
  obtain ⟨v, vrest, rfl⟩ := List.exists_cons_of_ne_nil hvs
  obtain ⟨d, hd⟩ := lookup_of_mem_keys (hkeys v (List.mem_cons_self _ _))
  refine List.ne_nil_of_mem (List.mem_filter.mpr
    ⟨List.mem_map.mpr ⟨(s, v :: vrest), List.mem_cons_self _ _, rfl⟩, ?_⟩)
  rw [List.filterMap_cons, hd]
  simp

theorem to_endo_name_long_eq {M : ModelMeta} {s l : String} {i : Nat}
    (hi : pyIndex M.endo_names s = some i)
    (hl : M.endo_names_long.get? i = some l) :
    to_endo_name_long M s = .ok l := by
  simp only [to_endo_name_long, hi, hl]

theorem to_endo_name_short_eq {M : ModelMeta} {t s : String} {i : Nat}
    (hi : pyIndex M.endo_names_long t = some i)
    (hs : M.endo_names.get? i = some s) :
    to_endo_name_short M t = .ok s := by
  simp only [to_endo_name_short, hi, hs]

theorem to_exo_name_long_eq {M : ModelMeta} {u s l : String} {i : Nat}
    (hi : pyIndex M.exo_names u = some i)
    (hs : M.exo_names.get? i = some s)
    (hl : M.exo_names_long.get? i = some l) :
    to_exo_name_long M u = .ok (if s = l then u else l) := by
  simp only [to_exo_name_long, hi, hs, hl]
  by_cases h : s = l
  · simp [h]
  · simp [h]

theorem to_exo_name_short_eq {M : ModelMeta} {t s l : String} {i : Nat}
    (hi : pyIndex M.exo_names_long t = some i)
    (hs : M.exo_names.get? i = some s)
    (hl : M.exo_names_long.get? i = some l) :
    to_exo_name_short M t = .ok (if s = l then t else s) := by
  simp only [to_exo_name_short, hi, hs, hl]
  by_cases h : s = l
  · simp [h]
  · simp [h]

/-- `convert` with `vartype="endo"`, `length="long"` is
`to_endo_name_long` (first dispatch arm). -/
theorem convert_endo_long (M : ModelMeta) (s : String) :
    convert s M "endo" "long" = to_endo_name_long M s := rfl

theorem convert_endo_short (M : ModelMeta) (s : String) :
    convert s M "endo" "short" = to_endo_name_short M s := rfl

theorem convert_exo_long (M : ModelMeta) (s : String) :
    convert s M "exo" "long" = to_exo_name_long M s := rfl

theorem convert_exo_short (M : ModelMeta) (s : String) :
    convert s M "exo" "short" = to_exo_name_short M s := rfl

/-! ## Claims -/

/-- C1, counterexample: with index-aligned lists and unique short names
but a duplicated long name (allowed by the spec), the round trip
`convert(convert(s, short→long), long→short)` maps the endogenous short
name `"b"` to `"a"`, not back to `"b"` — the claim as stated fails. -/
theorem c1_round_trip_cex :
    "b" ∈ c1Meta.endo_names ∧
    c1Meta.endo_names.length = c1Meta.endo_names_long.length ∧
    c1Meta.endo_names.Nodup ∧
    roundTrip "b" "endo" c1Meta = .ok "a" ∧
    roundTrip "b" "endo" c1Meta ≠ .ok "b" := by
  refine ⟨by decide, by decide, by decide, rfl, ?_⟩
  intro h
  rw [show roundTrip "b" "endo" c1Meta = .ok "a" from rfl] at h
  exact absurd (Except.ok.inj h) (by decide)

/-- C1 (amended): for every short name `s` in the endogenous
(resp. exogenous) short-name list, with the short/long lists
index-aligned and the long-name list duplicate-free, the round trip
`convert(convert(s, short→long), long→short)` returns `s`. -/
theorem c1_round_trip (M : ModelMeta) (s vt : String)
    (h : (vt = "endo" ∧ s ∈ M.endo_names ∧
            M.endo_names.length = M.endo_names_long.length ∧
            M.endo_names_long.Nodup) ∨
         (vt = "exo" ∧ s ∈ M.exo_names ∧
            M.exo_names.length = M.exo_names_long.length ∧
            M.exo_names_long.Nodup)) :
    roundTrip s vt M = .ok s := by
  rcases h with ⟨rfl, hs, hlen, hnd⟩ | ⟨rfl, hs, hlen, hnd⟩
  · obtain ⟨i, hi⟩ := pyIndex_of_mem hs
    have hget_s : M.endo_names.get? i = some s := pyIndex_get_self hi
    have hilt : i < M.endo_names_long.length := hlen ▸ pyIndex_lt_length hi
    have hl : M.endo_names_long.get? i =
        some (M.endo_names_long.get ⟨i, hilt⟩) := List.get?_eq_get hilt
    have hidx2 : pyIndex M.endo_names_long (M.endo_names_long.get ⟨i, hilt⟩) =
        some i := pyIndex_of_nodup_get hnd hl
    rw [roundTrip, convert_endo_long, to_endo_name_long_eq hi hl]
    show convert (M.endo_names_long.get ⟨i, hilt⟩) M "endo" "short" = .ok s
    rw [convert_endo_short, to_endo_name_short_eq hidx2 hget_s]
  · obtain ⟨i, hi⟩ := pyIndex_of_mem hs
    have hget_s : M.exo_names.get? i = some s := pyIndex_get_self hi
    have hilt : i < M.exo_names_long.length := hlen ▸ pyIndex_lt_length hi
    have hl : M.exo_names_long.get? i =
        some (M.exo_names_long.get ⟨i, hilt⟩) := List.get?_eq_get hilt
    set l := M.exo_names_long.get ⟨i, hilt⟩ with hldef
    have hidx2 : pyIndex M.exo_names_long l = some i :=
      pyIndex_of_nodup_get hnd hl
    rw [roundTrip, convert_exo_long, to_exo_name_long_eq hi hget_s hl]
    by_cases hsl : s = l
    · rw [if_pos hsl]
      show convert s M "exo" "short" = .ok s
      rw [convert_exo_short]
      have hidx2' : pyIndex M.exo_names_long s = some i := by rw [hsl]; exact hidx2
      rw [to_exo_name_short_eq hidx2' hget_s hl, if_pos hsl]
    · rw [if_neg hsl]
      show convert l M "exo" "short" = .ok s
      rw [convert_exo_short, to_exo_name_short_eq hidx2 hget_s hl, if_neg hsl]

/-- C1 witness: the amended round trip at concrete well-formed
metadata. -/
theorem c1_round_trip_w : roundTrip "a" "endo" c1WitnessMeta = .ok "a" :=
  c1_round_trip c1WitnessMeta "a" "endo"
    (Or.inl ⟨rfl, by decide, by decide, by decide⟩)

/-- C2: the `dynare_irf_utils.py` `convert` raises `ValueError` both for
an invalid `vartype` and for a valid `vartype` with an invalid `length`,
but the `main.py` variant falls through its `if`/`elif` arms and returns
`None` for a valid `vartype` with an invalid `length` — contradicting
the claim (and `main.py`'s own `-> str` annotation). -/
theorem c2_invalid_length :
    convert "a" c2Meta "endo" "medium" = .error "length must be short or long." ∧
    convert "a" c2Meta "typo" "short" =
      .error "vartype must be endo for endogenous or exo for exogenous." ∧
    convert_main "a" c2Meta "endo" "medium" = .ok none ∧
    convert_main "a" c2Meta "exo" "medium" = .ok none ∧
    convert_main "a" c2Meta "typo" "short" =
      .error "vartype must be endo for endogenous or exo for exogenous." :=
  ⟨rfl, rfl, rfl, rfl, rfl⟩

/-- C8: for a shock found at index `i` of the exogenous short-name list,
`convert(u, exo, long)` (which dispatches to `to_exo_name_long`) returns
the short name itself when the recorded short and long names at that
index coincide, and the long name when they differ. -/
theorem c8_elision (M : ModelMeta) (u l : String) (i : Nat)
    (hi : pyIndex M.exo_names u = some i)
    (hl : M.exo_names_long.get? i = some l) :
    convert u M "exo" "long" = .ok (if u = l then u else l) := by
  rw [convert_exo_long, to_exo_name_long_eq hi (pyIndex_get_self hi) hl]

/-- C8 witness: shock `u` of `c8Meta` has identical short and long names
and elides to itself; shock `v` has a distinct long name and resolves to
it. -/
theorem c8_elision_w :
    convert "u" c8Meta "exo" "long" = .ok (if "u" = "u" then "u" else "u") ∧
    convert "v" c8Meta "exo" "long" =
      .ok (if "v" = "V long" then "v" else "V long") :=
  ⟨c8_elision c8Meta "u" "u" 0 rfl rfl,
   c8_elision c8Meta "v" "V long" 1 rfl rfl⟩

theorem range'_append_my (a b s : Nat) :
    List.range' s a ++ List.range' (s + a) b = List.range' s (a + b) := by
  induction a generalizing s with
  | zero => simp
  | succ a ih =>
    rw [List.range'_succ, show a + 1 + b = a + b + 1 from by omega, List.range'_succ,
      List.cons_append]
    congr 1
    rw [show s + (a + 1) = s + 1 + a from by omega]
    exact ih (s + 1)

/-- C3, counterexample: the `main.py` variant of `plot_irf_df` performs
no thresholding, so a series whose maximum absolute value `1e-12` is
below the epsilon `1e-10` is drawn unchanged (still nonzero) — the rule
does not hold in every program variant. -/
theorem c3_threshold_cex :
    maxAbs [1 / 10 ^ 12] < irf_threshold_default ∧
    (1 : ℚ) / 10 ^ 12 ≠ 0 ∧
    plot_prep_main [("a", [1 / 10 ^ 12])] ["a"] = [("a", [1 / 10 ^ 12])] := by
  refine ⟨?_, by norm_num, rfl⟩
  rw [maxAbs_singleton _ (by norm_num), irf_threshold_default]
  norm_num

/-- C3 (amended): in the `dynare_irf_utils.py` variant of `plot_irf_df`,
every selected series appears in the prepared data thresholded: replaced
by all zeros when its maximum absolute value is strictly below the
epsilon, and left unchanged otherwise. -/
theorem c3_threshold (eps : ℚ) (tbl : List (String × List ℚ))
    (names : List String) (n : String) (v : List ℚ)
    (h : (n, v) ∈ selectCols tbl names) :
    (n, thresholdSeries eps v) ∈ plot_prep_utils eps tbl names ∧
    thresholdSeries eps v =
      if maxAbs v < eps then List.replicate v.length (0 : ℚ) else v := by
  constructor
  · exact List.mem_map.mpr ⟨(n, v), h, rfl⟩
  · rw [thresholdSeries]
    by_cases hc : maxAbs v < eps
    · rw [if_pos hc, if_pos hc, List.map_const']
    · rw [if_neg hc, if_neg hc]

/-- C3 witness: a `1e-12` series is below the default epsilon and comes
out of the preparation as the all-zero series; a `1e-5` series is at or
above it and comes out unchanged. -/
theorem c3_threshold_w :
    (("a", thresholdSeries irf_threshold_default [1 / 10 ^ 12]) ∈
        plot_prep_utils irf_threshold_default [("a", [1 / 10 ^ 12])] ["a"] ∧
      thresholdSeries irf_threshold_default [1 / 10 ^ 12] =
        if maxAbs [1 / 10 ^ 12] < irf_threshold_default then
          List.replicate ([1 / 10 ^ 12] : List ℚ).length (0 : ℚ)
        else [1 / 10 ^ 12]) ∧
    (("b", thresholdSeries irf_threshold_default [1 / 10 ^ 5]) ∈
        plot_prep_utils irf_threshold_default [("b", [1 / 10 ^ 5])] ["b"] ∧
      thresholdSeries irf_threshold_default [1 / 10 ^ 5] =
        if maxAbs [1 / 10 ^ 5] < irf_threshold_default then
          List.replicate ([1 / 10 ^ 5] : List ℚ).length (0 : ℚ)
        else [1 / 10 ^ 5]) :=
  ⟨c3_threshold irf_threshold_default [("a", [1 / 10 ^ 12])] ["a"] "a"
      [1 / 10 ^ 12] (List.mem_singleton.mpr rfl),
   c3_threshold irf_threshold_default [("b", [1 / 10 ^ 5])] ["b"] "b"
      [1 / 10 ^ 5] (List.mem_singleton.mpr rfl)⟩

/-- C4, counterexample: the app thresholding loop writes zeros back into
the stored table (`df[col] = arr` on the collection's own DataFrame), so
after composition the collection holds `[0]` where the extractor had put
the sub-epsilon series `[1e-12]` — the collection is not immutable. -/
theorem c4_immutable_cex :
    app_threshold_loop irf_threshold_default "u"
        [[("u", [("a", [1 / 10 ^ 12])])]] =
      [[("u", [("a", [0])])]] ∧
    (0 : ℚ) ≠ 1 / 10 ^ 12 := by
  have hz : thresholdSeries irf_threshold_default [(10 ^ 12 : ℚ)⁻¹] = [0] := by
    rw [thresholdSeries, if_pos]
    · rfl
    · rw [maxAbs_singleton _ (by norm_num), irf_threshold_default]
      norm_num
  constructor
  · simp [app_threshold_loop, thresholdTable, one_div, hz]
  · norm_num

/-- C4 (amended): `plot_irf_df` prepares data from a copied selection
and leaves its input alone, but the app thresholding loop mutates the
collections in place; the collections are left unchanged precisely when
every sub-epsilon series of the selected shock's tables is already
all-zero — in particular they are mutated whenever a nonzero
sub-epsilon series is present. -/
theorem c4_mutation_iff (eps : ℚ) (shock : String)
    (dfsList : List (List (String × List (String × List ℚ)))) :
    app_threshold_loop eps shock dfsList = dfsList ↔
      ∀ c ∈ dfsList, ∀ p ∈ c, p.1 = shock → ∀ q ∈ p.2,
        maxAbs q.2 < eps → q.2 = List.replicate q.2.length (0 : ℚ) := by
  rw [app_threshold_loop, map_eq_self_iff_my]
  constructor
  · intro h c hc p hp hps q hq hlt
    have h1 := (map_eq_self_iff_my.mp (h c hc)) p hp
    rw [if_pos hps] at h1
    have h2 : thresholdTable eps p.2 = p.2 := congrArg Prod.snd h1
    have h2' : p.2.map (fun q => (q.1, thresholdSeries eps q.2)) = p.2 := h2
    have h3 := (map_eq_self_iff_my.mp h2') q hq
    have h4 : thresholdSeries eps q.2 = q.2 := congrArg Prod.snd h3
    rw [thresholdSeries, if_pos hlt, List.map_const'] at h4
    exact h4.symm
  · intro h c hc
    rw [map_eq_self_iff_my]
    intro p hp
    by_cases hps : p.1 = shock
    · rw [if_pos hps]
      have ht : thresholdTable eps p.2 = p.2 := by
        rw [thresholdTable, map_eq_self_iff_my]
        intro q hq
        by_cases hlt : maxAbs q.2 < eps
        · rw [thresholdSeries, if_pos hlt, List.map_const',
            ← h c hc p hp hps q hq hlt]
        · rw [thresholdSeries, if_neg hlt]
      rw [ht]
    · rw [if_neg hps]

/-- C5: when `s` is the first shock in the stored exogenous order whose
`"_<s>"` suffix matches the field name, the scan accepts `s` (the shocks
after `s` are never consulted — in the witness a later shock also
matches), and when the remaining prefix is not a known endogenous short
name the field leaves the accumulator untouched and no error is
raised. -/
theorem c5_first_match (exo pre rest endo : List String) (f s : String)
    (acc : List (String × List String))
    (h1 : exo = pre ++ s :: rest)
    (h2 : ∀ e ∈ pre, pyEndsWith f ("_" ++ e) = false)
    (h3 : pyEndsWith f ("_" ++ s) = true)
    (h4 : fieldVar f s ∉ endo) :
    matchShock exo f = some s ∧ groupStep exo endo acc f = acc := by
  subst h1
  have hm : matchShock (pre ++ s :: rest) f = some s := by
    rw [matchShock]
    have key : ∀ (l : List String), (∀ e ∈ l, pyEndsWith f ("_" ++ e) = false) →
        List.find? (fun shock => pyEndsWith f ("_" ++ shock)) (l ++ s :: rest) =
          some s := by
      intro l
      induction l with
      | nil =>
        intro _
        simp [List.find?_cons, h3]
      | cons e es ih =>
        intro h2'
        simp only [List.cons_append, List.find?_cons,
          h2' e (List.mem_cons_self _ _)]
        exact ih (fun e' he' => h2' e' (List.mem_cons_of_mem _ he'))
    exact key pre h2
  refine ⟨hm, ?_⟩
  simp [groupStep, hm, h4]

/-- C5 witness: with shocks `["e", "_e"]` the field `"a__e"` matches both
suffixes, the first shock `"e"` wins, its prefix `"a_"` is not a known
variable, and the accumulator stays empty. -/
theorem c5_first_match_w :
    matchShock ["e", "_e"] "a__e" = some "e" ∧
    groupStep ["e", "_e"] ["b"] [] "a__e" = [] :=
  c5_first_match ["e", "_e"] [] ["_e"] ["b"] "a__e" "e" [] rfl
    (by simp) (by decide) (by decide)

/-- C6: with shocks `{e, u}`, variables `{a, b}` and fields
`{a_e: v1, b_e: v2, a_u: v3}`, extraction groups every matched triple
under its shock: `{e: {a: v1, b: v2}, u: {a: v3}}`. -/
theorem c6_grouping (v1 v2 v3 : List ℚ) :
    get_irf ["e", "u"] ["a", "b"] [("a_e", v1), ("b_e", v2), ("a_u", v3)] =
      .ok [("e", [("a", v1), ("b", v2)]), ("u", [("a", v3)])] := rfl

/-- C9: for `seriesCount ≥ 1` and `requestedColumns ≥ 1` the computed
row count is the ceiling of the exact quotient (characterized by
`n ≤ rows*cols < n + cols`), the `rows*cols` grid cells split into the
first `seriesCount` drawn cells followed exactly by the hidden ones, and
the number of hidden trailing cells is `rows*cols - seriesCount`. -/
theorem c9_layout (n c : Nat) (hn : 1 ≤ n) (hc : 1 ≤ c) :
    n ≤ nRows n c * c ∧ nRows n c * c < n + c ∧
    pyRange 0 n ++ hidden_axes n c = pyRange 0 (nRows n c * c) ∧
    (hidden_axes n c).length = nRows n c * c - n := by
  have hc0 : (0 : ℚ) < (c : ℚ) := by exact_mod_cast hc
  have hceil : ((nRows n c : Nat) : ℤ) = ⌈(n : ℚ) / (c : ℚ)⌉ := by
    rw [nRows, Int.toNat_of_nonneg]
    exact Int.ceil_nonneg (div_nonneg (by positivity) (le_of_lt hc0))
  have hle : ((n : ℚ) / (c : ℚ)) ≤ ((nRows n c : Nat) : ℚ) := by
    have h := Int.le_ceil ((n : ℚ) / (c : ℚ))
    rw [← hceil] at h
    exact_mod_cast h
  have hlt : (((nRows n c : Nat) : ℚ)) < (n : ℚ) / (c : ℚ) + 1 := by
    have h := Int.ceil_lt_add_one ((n : ℚ) / (c : ℚ))
    rw [← hceil] at h
    exact_mod_cast h
  have h1 : n ≤ nRows n c * c := by
    have : (n : ℚ) ≤ ((nRows n c : Nat) : ℚ) * c := by
      calc (n : ℚ) = (n : ℚ) / c * c := by field_simp
      _ ≤ ((nRows n c : Nat) : ℚ) * c :=
          mul_le_mul_of_nonneg_right hle (le_of_lt hc0)
    exact_mod_cast this
  have h2 : nRows n c * c < n + c := by
    have : ((nRows n c : Nat) : ℚ) * c < (n : ℚ) + c := by
      calc ((nRows n c : Nat) : ℚ) * c < ((n : ℚ) / c + 1) * c :=
          mul_lt_mul_of_pos_right hlt hc0
      _ = (n : ℚ) + c := by field_simp
    exact_mod_cast this
  refine ⟨h1, h2, ?_, ?_⟩
  · rw [hidden_axes, pyRange, pyRange, pyRange, Nat.sub_zero, Nat.sub_zero]
    have happ := range'_append_my n (nRows n c * c - n) 0
    rw [Nat.zero_add] at happ
    rw [happ, show n + (nRows n c * c - n) = nRows n c * c from by omega]
  · rw [hidden_axes, pyRange, List.length_range']

/-- C9 witness: `seriesCount = 7`, `requestedColumns = 3` gives `rows = 3`
and exactly the two trailing cells `[7, 8]` hidden. -/
theorem c9_layout_w :
    nRows 7 3 = 3 ∧ hidden_axes 7 3 = [7, 8] ∧
    7 ≤ nRows 7 3 * 3 ∧ nRows 7 3 * 3 < 7 + 3 ∧
    pyRange 0 7 ++ hidden_axes 7 3 = pyRange 0 (nRows 7 3 * 3) ∧
    (hidden_axes 7 3).length = nRows 7 3 * 3 - 7 := by
  have h73 : nRows 7 3 = 3 := by
    have h : ⌈((7 : Nat) : ℚ) / ((3 : Nat) : ℚ)⌉ = 3 := by
      rw [Int.ceil_eq_iff]
      constructor
      · push_cast
        norm_num
      · push_cast
        norm_num
    rw [nRows, h]
    rfl
  obtain ⟨ha, hb, hcc, hd⟩ := c9_layout 7 3 (by decide) (by decide)
  refine ⟨h73, ?_, ha, hb, hcc, hd⟩
  rw [hidden_axes, h73]
  rfl

/-- C7, counterexample: with shocks `["e", "b_e"]` and variable `"a"`,
the field `"a_b_e"` decomposes as the known pair
`("a", "b_e")`, yet extraction fails: the first-matching shock is `"e"`,
whose prefix `"a_b"` is unknown, so the field is dropped and the
collection comes out empty — extraction can raise `NoDataError` even
though a field matches a known (variable, shock) pair. -/
theorem c7_nodata_cex :
    "a_b_e" = "a" ++ "_" ++ "b_e" ∧
    "a" ∈ (["a"] : List String) ∧
    "b_e" ∈ (["e", "b_e"] : List String) ∧
    (get_irf ["e", "b_e"] ["a"] [("a_b_e", [1])]).isOk = false :=
  ⟨rfl, by decide, by decide, rfl⟩

/-- C7 (amended): extraction succeeds exactly when at least one field
contributes under the extractor's rule — the first shock whose
`"_<shock>"` suffix matches leaves a known endogenous prefix —
equivalently, it raises `NoDataError` exactly when the resulting
collection is empty. -/
theorem c7_nodata_iff (exo endo : List String)
    (fields : List (String × List ℚ)) :
    (get_irf exo endo fields).isOk =
      (fields.map Prod.fst).any (fieldContributes exo endo) := by
  by_cases hany : (fields.map Prod.fst).any (fieldContributes exo endo) = true
  · rw [hany]
    obtain ⟨f, hf, hcf⟩ := List.any_eq_true.mp hany
    have hraw : usedVarsRaw exo endo (pySorted (fields.map Prod.fst)) ≠ [] := by
      intro hnil
      rw [usedVarsRaw] at hnil
      obtain ⟨-, hall⟩ := (foldl_groupStep_eq_nil_iff _ _).mp hnil
      rw [hall f (mem_pySorted.mpr hf)] at hcf
      exact Bool.noConfusion hcf
    have hgr : ((usedVarsRaw exo endo (pySorted (fields.map Prod.fst))).map
        (fun p => (p.1, pySortedSet p.2))) ≠ [] := by
      intro hnil
      exact hraw (List.map_eq_nil_iff.mp hnil)
    have hge : ((usedVarsRaw exo endo
        (pySorted (fields.map Prod.fst))).map
        (fun p => (p.1, pySortedSet p.2))).isEmpty = false :=
      List.isEmpty_eq_false.mpr hgr
    have hok : get_irf_endo_vars exo endo (pySorted (fields.map Prod.fst)) =
        .ok ((usedVarsRaw exo endo (pySorted (fields.map Prod.fst))).map
          (fun p => (p.1, pySortedSet p.2))) := by
      simp [get_irf_endo_vars, hge]
    have hgood := goodAcc_usedVarsRaw exo endo (fields.map Prod.fst)
    have hprop : ∀ p ∈ ((usedVarsRaw exo endo
        (pySorted (fields.map Prod.fst))).map
        (fun p => (p.1, pySortedSet p.2))),
        p.2 ≠ [] ∧ ∀ v ∈ p.2, (v ++ "_" ++ p.1) ∈ fields.map Prod.fst := by
      intro p hp
      obtain ⟨q, hq, rfl⟩ := List.mem_map.mp hp
      obtain ⟨hqne, -, hqv⟩ := hgood q hq
      refine ⟨fun hnil => hqne (pySortedSet_eq_nil.mp hnil), ?_⟩
      intro v hv
      exact (hqv v (mem_pySortedSet.mp hv)).2
    have hbt := buildTables_ne_nil hgr hprop
    have hbe := List.isEmpty_eq_false.mpr hbt
    simp only [get_irf, hok, hbe, Bool.false_eq_true, if_false]
    rfl
  · have hany' : (fields.map Prod.fst).any (fieldContributes exo endo) = false :=
      Bool.not_eq_true _ ▸ Bool.of_not_eq_true hany
    rw [hany']
    have hall : ∀ g ∈ pySorted (fields.map Prod.fst),
        fieldContributes exo endo g = false := by
      intro g hg
      rcases hc : fieldContributes exo endo g with _ | _
      · rfl
      · exact absurd (List.any_eq_true.mpr ⟨g, mem_pySorted.mp hg, hc⟩) hany
    have hraw : usedVarsRaw exo endo (pySorted (fields.map Prod.fst)) = [] := by
      rw [usedVarsRaw]
      exact (foldl_groupStep_eq_nil_iff _ _).mpr ⟨rfl, hall⟩
    have herr : get_irf_endo_vars exo endo (pySorted (fields.map Prod.fst)) =
        .error "No IRF variable names found for the given shocks." := by
      simp [get_irf_endo_vars, hraw]
    simp only [get_irf, herr]
    rfl

/-- C10: every table of a successful extraction is keyed by a known
exogenous short name, is nonempty (a shock with no matched variable
never appears), and lists its variables — all known endogenous short
names — in ascending order without duplicates. -/
theorem c10_invariant (exo endo : List String)
    (fields : List (String × List ℚ))
    (res : List (String × List (String × List ℚ)))
    (s : String) (tbl : List (String × List ℚ))
    (hres : get_irf exo endo fields = .ok res) (hmem : (s, tbl) ∈ res) :
    s ∈ exo ∧ tbl ≠ [] ∧ strSorted (tbl.map Prod.fst) ∧
    (tbl.map Prod.fst).Nodup ∧ tbl.map Prod.fst ⊆ endo := by
  rcases hvars : get_irf_endo_vars exo endo (pySorted (fields.map Prod.fst))
    with e | used
  · simp only [get_irf, hvars] at hres
    exact absurd hres (by simp)
  · simp only [get_irf, hvars] at hres
    by_cases hbe : (buildTables fields used).isEmpty = true
    · rw [if_pos hbe] at hres
      exact absurd hres (by simp)
    · rw [if_neg hbe] at hres
      have hres' : buildTables fields used = res := Except.ok.inj hres
      rw [← hres'] at hmem
      -- invert get_irf_endo_vars
      simp only [get_irf_endo_vars] at hvars
      by_cases hgre : ((usedVarsRaw exo endo
          (pySorted (fields.map Prod.fst))).map
          (fun p => (p.1, pySortedSet p.2))).isEmpty = true
      · rw [if_pos hgre] at hvars
        exact absurd hvars (by simp)
      · rw [if_neg hgre] at hvars
        have hused : (usedVarsRaw exo endo
            (pySorted (fields.map Prod.fst))).map
            (fun p => (p.1, pySortedSet p.2)) = used := Except.ok.inj hvars
        -- decompose the membership
        rw [buildTables] at hmem
        obtain ⟨hmm, hpred⟩ := List.mem_filter.mp hmem
        obtain ⟨⟨s', vs⟩, hq, heq⟩ := List.mem_map.mp hmm
        obtain ⟨hs1, hs2⟩ := Prod.mk.inj heq
        rw [← hused] at hq
        obtain ⟨⟨s0, vs0⟩, hq0, heq0⟩ := List.mem_map.mp hq
        obtain ⟨hs01, hs02⟩ := Prod.mk.inj heq0
        obtain ⟨-, hs0exo, hv0⟩ :=
          goodAcc_usedVarsRaw exo endo (fields.map Prod.fst) (s0, vs0) hq0
        have hsexo : s ∈ exo := by
          rw [← hs1, ← hs01]
          exact hs0exo
        have hsub : (tbl.map Prod.fst).Sublist (pySortedSet vs0) := by
          rw [← hs2, ← hs02]
          exact map_fst_filterMap_sublist (pySortedSet vs0)
            (fun v => fields.lookup (v ++ "_" ++ s'))
        refine ⟨hsexo, ?_, ?_, ?_, ?_⟩
        · intro hnil
          rw [hnil] at hpred
          exact Bool.noConfusion hpred
        · exact List.Pairwise.sublist hsub (sorted_pySortedSet vs0)
        · exact List.Nodup.sublist hsub (nodup_pySortedSet vs0)
        · intro v hv
          exact (hv0 v (mem_pySortedSet.mp (hsub.subset hv))).1

/-- C10 witness: the invariant instantiated at the concrete extraction
of `{a_e: [1], b_e: [2], a_u: [3]}` over shocks `{e, u}` and variables
`{a, b}`, for the table of shock `e`. -/
theorem c10_invariant_w :
    "e" ∈ (["e", "u"] : List String) ∧
    ([("a", [(1 : ℚ)]), ("b", [2])] : List (String × List ℚ)) ≠ [] ∧
    strSorted (([("a", [(1 : ℚ)]), ("b", [2])] :
      List (String × List ℚ)).map Prod.fst) ∧
    (([("a", [(1 : ℚ)]), ("b", [2])] :
      List (String × List ℚ)).map Prod.fst).Nodup ∧
    (([("a", [(1 : ℚ)]), ("b", [2])] :
      List (String × List ℚ)).map Prod.fst) ⊆ ["a", "b"] :=
  c10_invariant ["e", "u"] ["a", "b"]
    [("a_e", [1]), ("b_e", [2]), ("a_u", [3])]
    [("e", [("a", [1]), ("b", [2])]), ("u", [("a", [3])])]
    "e" [("a", [1]), ("b", [2])] rfl (List.mem_cons_self _ _)

end Dynare
